import Mathlib

/-!
Verification of the FIFO lot-matching, XIRR and aggregation core of a
portfolio backend. JavaScript numbers are modelled as exact rationals
(`ℚ`); timestamps (`Date.getTime()` values) as integers; JS `null` as
`Option`. Each definition is a direct translation of the corresponding
function in the source (file and function named in its doc comment).
-/

namespace Portfolio

/-- The epsilon `1e-8` used throughout the source for unit/cost cutoffs. -/
def epsQ : ℚ := 1 / 100000000

/-- `needle` is a prefix of `hay` (character lists). -/
def charsPre : List Char → List Char → Bool
  | [], _ => true
  | _ :: _, [] => false
  | a :: as, b :: bs => a == b && charsPre as bs

/-- `needle` occurs somewhere inside `hay`: model of JS `String.includes`. -/
def charsSub (needle : List Char) : List Char → Bool
  | [] => needle.isEmpty
  | b :: bs => charsPre needle (b :: bs) || charsSub needle bs

/-- JS `hay.includes(needle)`. -/
def jsIncludes (hay needle : String) : Bool :=
  charsSub needle.toList hay.toList

/-- An open cost lot as pushed by `calculateMFLots` / `calculateNPSHoldings`
(`src/services/lotCalculator.js`, `src/services/aggregationService.js`):
`order` is the transaction timestamp (`none` = missing date, sorted last)
and `sequence` the original row index.  The source also stores the raw
`date`, which is never read again and is omitted here. -/
structure Lot where
  units : ℚ
  cost : ℚ
  order : Option ℤ
  sequence : ℕ
  deriving DecidableEq, Repr

/-- The FIFO comparator of `reduceLotUnits` / `sortLotsFifo`: ascending
`(order, sequence)` with missing `order` treated as `+∞`.  Timestamps are
integers, so the source's `|orderDiff| > 1e-8` test is exactly `≠`. -/
def lotBefore (a b : Lot) : Prop :=
  match a.order, b.order with
  | some x, some y => x < y ∨ (x = y ∧ a.sequence ≤ b.sequence)
  | some _, none => True
  | none, some _ => False
  | none, none => a.sequence ≤ b.sequence

instance : DecidableRel lotBefore := by
  intro a b
  unfold lotBefore
  match a.order, b.order with
  | some x, some y => exact inferInstance
  | some _, none => exact inferInstance
  | none, some _ => exact inferInstance
  | none, none => exact inferInstance

instance : IsTotal Lot lotBefore := by
  constructor
  intro a b
  unfold lotBefore
  match a.order, b.order with
  | some x, some y =>
    rcases lt_trichotomy x y with h | h | h
    · exact Or.inl (Or.inl h)
    · subst h
      rcases Nat.le_total a.sequence b.sequence with h | h
      · exact Or.inl (Or.inr ⟨rfl, h⟩)
      · exact Or.inr (Or.inr ⟨rfl, h⟩)
    · exact Or.inr (Or.inl h)
  | some _, none => exact Or.inl trivial
  | none, some _ => exact Or.inr trivial
  | none, none => exact Nat.le_total a.sequence b.sequence

instance : IsTrans Lot lotBefore := by
  constructor
  intro a b c hab hbc
  unfold lotBefore at *
  match ha : a.order, hb : b.order, hc : c.order with
  | some x, some y, some z =>
    rw [ha, hb] at hab; rw [hb, hc] at hbc
    rcases hab with h₁ | ⟨rfl, h₁⟩
    · rcases hbc with h₂ | ⟨rfl, _⟩
      · exact Or.inl (h₁.trans h₂)
      · exact Or.inl h₁
    · rcases hbc with h₂ | ⟨rfl, h₂⟩
      · exact Or.inl h₂
      · exact Or.inr ⟨rfl, h₁.trans h₂⟩
  | some _, some _, none => exact trivial
  | some _, none, some _ => rw [hb, hc] at hbc; exact hbc.elim
  | some _, none, none => exact trivial
  | none, some _, _ => rw [ha, hb] at hab; exact hab.elim
  | none, none, some _ => rw [hb, hc] at hbc; exact hbc.elim
  | none, none, none =>
    rw [ha, hb] at hab; rw [hb, hc] at hbc
    exact hab.trans hbc

/-- The in-place FIFO sort at the top of `reduceLotUnits`
(`lotCalculator.js` lines 40-46).  JS `Array.sort` is stable, as is
insertion sort. -/
def sortLotsFifo (lots : List Lot) : List Lot :=
  lots.insertionSort lotBefore

/-- The consumption loop of `reduceLotUnits` (`lotCalculator.js` lines
47-57).  When a lot is only partially consumed the source re-enters the
loop, but there `deduction = min remaining lot.units < lot.units` forces
`deduction = remaining`, so `remaining` drops to `0 ≤ 1e-8` and the loop
exits at once; the translation returns the updated list directly. -/
def reduceLoop : List Lot → ℚ → List Lot
  | [], _ => []
  | lot :: rest, remaining =>
    if remaining ≤ epsQ then lot :: rest
    else
      let deduction := min remaining lot.units
      let costPerUnit := if lot.units = 0 then 0 else lot.cost / lot.units
      let u := lot.units - deduction
      let c := lot.cost - deduction * costPerUnit
      if u ≤ epsQ then reduceLoop rest (remaining - deduction)
      else { lot with units := u, cost := c } :: rest

/-- `reduceLotUnits` of `src/services/lotCalculator.js` (lines 38-58):
sort FIFO, then consume `unitsToRemove` from the head. -/
def reduceLotUnits (lots : List Lot) (unitsToRemove : ℚ) : List Lot :=
  reduceLoop (sortLotsFifo lots) unitsToRemove

/-- The consumption loop of the `reduceLotUnits` variant in
`src/services/aggregationService.js` (lines 42-57): it additionally
evicts a lot whose cost fell to `≤ 1e-8` and clamps a kept lot at 0
(a no-op there, since a kept lot has `units > 1e-8` and `cost > 1e-8`).
As above, a kept lot means `remaining` drops to 0 and the loop exits. -/
def reduceLoopAgg : List Lot → ℚ → List Lot
  | [], _ => []
  | lot :: rest, remaining =>
    if remaining ≤ epsQ then lot :: rest
    else
      let deduction := min remaining lot.units
      let costPerUnit := if lot.units = 0 then 0 else lot.cost / lot.units
      let u := lot.units - deduction
      let c := lot.cost - deduction * costPerUnit
      if u ≤ epsQ ∨ c ≤ epsQ then reduceLoopAgg rest (remaining - deduction)
      else { lot with units := max u 0, cost := max c 0 } :: rest

/-- `reduceLotUnits` of `src/services/aggregationService.js` (lines
31-58), including its early-outs for an empty lot list and a
non-positive demand. -/
def reduceLotUnitsAgg (lots : List Lot) (unitsToRemove : ℚ) : List Lot :=
  if lots.isEmpty then lots
  else if unitsToRemove ≤ epsQ then lots
  else reduceLoopAgg (sortLotsFifo lots) unitsToRemove

/-- An open lot in `getAnalysisSummary` (`src/services/analysisService.js`
line 750): it additionally carries the purchase `nav`.  The stored
`date` (only echoed into cashflow records, which no claim touches) is
omitted. -/
structure LotA where
  units : ℚ
  cost : ℚ
  nav : ℚ
  order : Option ℤ
  sequence : ℕ
  deriving DecidableEq, Repr

/-- The FIFO comparator of `sortLotsFifo` in `analysisService.js`
(lines 113-121), identical to the one in `lotCalculator.js`. -/
def lotABefore (a b : LotA) : Prop :=
  match a.order, b.order with
  | some x, some y => x < y ∨ (x = y ∧ a.sequence ≤ b.sequence)
  | some _, none => True
  | none, some _ => False
  | none, none => a.sequence ≤ b.sequence

instance : DecidableRel lotABefore := by
  intro a b
  unfold lotABefore
  match a.order, b.order with
  | some x, some y => exact inferInstance
  | some _, none => exact inferInstance
  | none, some _ => exact inferInstance
  | none, none => exact inferInstance

/-- One entry of the `consumed` array built by `consumeLots`
(`analysisService.js` lines 140-148); only the fields a claim touches
(`units`, `cost`) are kept. -/
structure ConsumedPortion where
  units : ℚ
  cost : ℚ
  deriving DecidableEq, Repr

/-- Result of `consumeLots`: the consumed portions, the surviving lot
list (the source mutates `lots` in place) and the unsatisfied
`remaining` demand. -/
structure ConsumeResult where
  consumed : List ConsumedPortion
  lots : List LotA
  remaining : ℚ
  deriving DecidableEq, Repr

/-- The loop of `consumeLots` (`analysisService.js` lines 128-158).  A
zero-unit head is shifted and skipped; a consumed head is evicted when
its units or cost fall to `≤ 1e-8`.  When the head survives, the source
re-enters the loop, but there `deduction < available` forces
`deduction = remaining`, so `remaining` drops to 0 and the loop exits;
the translation returns directly. -/
def consumeLoop : List LotA → ℚ → ConsumeResult
  | [], remaining => ⟨[], [], remaining⟩
  | lot :: rest, remaining =>
    if remaining ≤ epsQ then ⟨[], lot :: rest, remaining⟩
    else if lot.units ≤ epsQ then consumeLoop rest remaining
    else
      let available := lot.units
      let deduction := min remaining available
      let costPerUnit := if available > epsQ then lot.cost / available else lot.nav
      let costPortion := deduction * costPerUnit
      let u := available - deduction
      let c := lot.cost - costPortion
      if u ≤ epsQ ∨ c ≤ epsQ then
        let r := consumeLoop rest (remaining - deduction)
        ⟨⟨deduction, costPortion⟩ :: r.consumed, r.lots, r.remaining⟩
      else
        ⟨[⟨deduction, costPortion⟩], { lot with units := u, cost := c } :: rest,
          remaining - deduction⟩

/-- `consumeLots` of `src/services/analysisService.js` (lines 123-161):
FIFO-sort, then consume from the head. -/
def consumeLots (lots : List LotA) (unitsToRemove : ℚ) : ConsumeResult :=
  consumeLoop (lots.insertionSort lotABefore) unitsToRemove

/-- A raw `mf_transactions` row as read by `calculateMFLots`
(`lotCalculator.js`).  String fields are kept verbatim; `units`/`nav`
are the numeric coercions (`toNumber`) of the raw cells, and `date` is
the parsed timestamp (`parseTransactionDate`), `none` when missing or
unparseable. -/
structure MfTxn where
  fund_short_name : String
  account_name : String
  transaction_type : String
  units : ℚ
  nav : ℚ
  date : Option ℤ
  deriving DecidableEq, Repr

/-- The prepared transaction built in `calculateMFLots` lines 147-164. -/
structure MfPrepared where
  fundName : String
  accountName : String
  type : String
  units : ℚ
  nav : ℚ
  effectiveDate : Option ℤ
  index : ℕ
  deriving DecidableEq, Repr

/-- The chronological comparator of `calculateMFLots` lines 166-171:
ascending timestamp (missing dates last) with the original row index as
tiebreaker. -/
def mfTxnBefore (a b : MfPrepared) : Prop :=
  match a.effectiveDate, b.effectiveDate with
  | some x, some y => x < y ∨ (x = y ∧ a.index ≤ b.index)
  | some _, none => True
  | none, some _ => False
  | none, none => a.index ≤ b.index

instance : DecidableRel mfTxnBefore := by
  intro a b
  unfold mfTxnBefore
  match a.effectiveDate, b.effectiveDate with
  | some x, some y => exact inferInstance
  | some _, none => exact inferInstance
  | none, some _ => exact inferInstance
  | none, none => exact inferInstance

/-- `FIFO_SALE_KEYWORDS` of `lotCalculator.js` lines 13-17. -/
def fifoSaleKeywords : List String :=
  ["sell", "redeem", "withdraw", "switch out", "switch-out",
   "switch to", "switch-to", "stp out", "stp-out", "charges",
   "exit", "migration", "transfer", "payout"]

/-- The map/filter/sort pipeline of `calculateMFLots` lines 146-171:
trim names, lowercase the type, drop rows without a fund name or with
`|units| ≤ 1e-8`, and sort chronologically. -/
def mfPrepare (txns : List MfTxn) : List MfPrepared :=
  ((txns.enum.filterMap fun p =>
      let txn := p.2
      let fundName := txn.fund_short_name.trim
      if fundName = "" then none
      else some
        { fundName := fundName
          accountName := txn.account_name.trim
          type := txn.transaction_type.toLower
          units := txn.units
          nav := txn.nav
          effectiveDate := txn.date
          index := p.1 }).filter
    fun t => decide (|t.units| > epsQ)).insertionSort mfTxnBefore

/-- The per-transaction ledger step of `calculateMFLots` lines 173-198
(for the ledger of one `fund||account` key): a `buy`-typed positive
purchase pushes a lot; a negative-unit or sale-keyword transaction
consumes FIFO. -/
def mfStep (lots : List Lot) (t : MfPrepared) : List Lot :=
  if jsIncludes t.type "buy" ∧ t.units > 0 then
    lots ++ [{ units := t.units
               cost := t.units * t.nav
               order := t.effectiveDate
               sequence := t.index }]
  else if t.units < 0 ∨ fifoSaleKeywords.any fun kw => jsIncludes t.type kw then
    reduceLotUnits lots (if t.units < 0 then |t.units| else t.units)
  else lots

/-- The open-lot ledger `lotsByFund.get (fundName ++ "||" ++ accountName)`
after `calculateMFLots` has processed `txns`: the fold of `mfStep` over
the prepared transactions carrying that key.  (In the source each key
owns its own lot array; restricting the fold to one key's transactions
yields exactly that array.) -/
def mfLedger (txns : List MfTxn) (fundName accountName : String) : List Lot :=
  ((mfPrepare txns).filter fun t =>
      t.fundName == fundName && t.accountName == accountName).foldl mfStep []

/-- A published MF holding (`calculateMFLots` lines 213-222), restricted
to the fields the claims touch. -/
structure MfHolding where
  units : ℚ
  invested : ℚ
  marketValue : ℚ
  deriving DecidableEq, Repr

/-- The holding `calculateMFLots` emits for one `fund||account` key
(lines 200-226): open lots are those with `units > 1e-8`; `invested`
sums `max cost 0`; nothing is emitted when no lot is open. -/
def mfHolding (txns : List MfTxn) (fundName accountName : String) (cmp : ℚ) :
    Option MfHolding :=
  let openLots := (mfLedger txns fundName accountName).filter fun lot =>
    decide (lot.units > epsQ)
  if openLots.isEmpty then none
  else
    let totalUnits := (openLots.map Lot.units).sum
    let totalCost := (openLots.map fun lot => max lot.cost 0).sum
    some { units := totalUnits, invested := totalCost, marketValue := totalUnits * cmp }

/-- A closed-lot record pushed by the sell branch of `getAnalysisSummary`
(`analysisService.js` lines 802-809), restricted to the fields the
claims touch (`gain`, `gain_percent` and the cashflow list are derived
from these and are untouched by every claim). -/
structure ClosedRec where
  invested_amount : ℚ
  sale_amount : ℚ
  units : ℚ
  deriving DecidableEq, Repr

/-- The per-fund mutable state of `getAnalysisSummary` lines 705-706:
open lots and closed-lot records, shared by all accounts of the fund. -/
structure AnState where
  openLots : List LotA
  closed : List ClosedRec
  deriving DecidableEq, Repr

/-- The map/filter/sort pipeline of `getAnalysisSummary` lines 710-740
for one account's transactions (`__sequence` is the index within the
account's list). -/
def anPrepare (txns : List MfTxn) : List MfPrepared :=
  ((txns.enum.map fun p =>
      { fundName := p.2.fund_short_name.trim
        accountName := p.2.account_name.trim
        type := p.2.transaction_type.toLower
        units := p.2.units
        nav := p.2.nav
        effectiveDate := p.2.date
        index := p.1 : MfPrepared }).filter
    fun t => decide (|t.units| > epsQ)).insertionSort mfTxnBefore

/-- One step of the `sorted.forEach` body of `getAnalysisSummary` lines
742-812: skip non-positive navs and dust; an exact `"buy"` type with
positive units opens a lot; an exact `"sell"` type consumes FIFO and,
when the sale amount is positive, records a closed lot. -/
def anStep (st : AnState) (t : MfPrepared) : AnState :=
  if |t.units| ≤ epsQ ∨ t.nav ≤ 0 then st
  else if t.type = "buy" ∧ t.units > 0 then
    { st with openLots := st.openLots ++
        [{ units := t.units
           cost := t.units * t.nav
           nav := t.nav
           order := t.effectiveDate
           sequence := t.index }] }
  else if t.type = "sell" then
    let unitsToConsume := |t.units|
    if unitsToConsume ≤ epsQ then st
    else
      let r := consumeLots st.openLots unitsToConsume
      if r.consumed.isEmpty then { st with openLots := r.lots }
      else
        let totalInvested := (r.consumed.map ConsumedPortion.cost).sum
        let totalUnitsSold := (r.consumed.map ConsumedPortion.units).sum
        let saleAmount := t.nav * totalUnitsSold
        if saleAmount > 0 then
          { openLots := r.lots
            closed := st.closed ++ [⟨totalInvested, saleAmount, totalUnitsSold⟩] }
        else { st with openLots := r.lots }
  else st

/-- The per-fund state after `getAnalysisSummary` has processed the
given per-account transaction lists in order (lines 710-813). -/
def anFundState (accountLists : List (List MfTxn)) : AnState :=
  accountLists.foldl (fun st l => (anPrepare l).foldl anStep st) ⟨[], []⟩

/-- An aggregated active MF holding (`getAnalysisSummary` lines 827-838),
restricted to the fields the claims touch. -/
structure ActiveAgg where
  units : ℚ
  invested : ℚ
  marketValue : ℚ
  deriving DecidableEq, Repr

/-- An aggregated closed MF holding (`getAnalysisSummary` lines 849-858),
restricted to the fields the claims touch. -/
structure ClosedAgg where
  invested : ℚ
  closedValue : ℚ
  units : ℚ
  deriving DecidableEq, Repr

/-- The per-fund aggregation of `getAnalysisSummary` lines 815-860: an
active holding is emitted only when open lots remain, *no* closed lot
was recorded, and at least one whole unit is open; a closed holding is
emitted whenever closed lots exist. -/
def anFundSummary (accountLists : List (List MfTxn)) (cmp lcp : ℚ) :
    List ActiveAgg × List ClosedAgg :=
  let st := anFundState accountLists
  let openF := st.openLots.filter fun lot => decide (lot.units > epsQ)
  let active :=
    if ¬ openF.isEmpty ∧ st.closed.isEmpty then
      let valuationPrice := if cmp > 0 then cmp else if lcp > 0 then lcp else 0
      let totalUnits := (openF.map LotA.units).sum
      let totalCost := (openF.map fun lot => max lot.cost 0).sum
      if totalUnits ≥ 1 then
        [{ units := totalUnits
           invested := totalCost
           marketValue := totalUnits * valuationPrice }]
      else []
    else []
  let closedAgg :=
    if st.closed.isEmpty then []
    else
      [{ invested := (st.closed.map ClosedRec.invested_amount).sum
         closedValue := (st.closed.map ClosedRec.sale_amount).sum
         units := (st.closed.map ClosedRec.units).sum : ClosedAgg }]
  (active, closedAgg)

/-- A cashflow point handed to the XIRR solvers: signed amount and date.
The date is in whole days; `(cf.date - baseDate) / XIRR_MS_PER_YEAR`
becomes the integer division `(date - base) / 365`, which agrees exactly
with the source's real-valued exponent whenever the gap is a whole
number of years (as in every input considered here). -/
structure Cashflow where
  amount : ℚ
  date : ℤ
  deriving DecidableEq, Repr

/-- Ascending-date comparator used by both solvers' `sort`. -/
def cashflowBefore (a b : Cashflow) : Prop := a.date ≤ b.date

instance : DecidableRel cashflowBefore := by
  intro a b
  unfold cashflowBefore
  exact inferInstance

/-- The bisection tolerance `1e-6`. -/
def tolQ : ℚ := 1 / 1000000

/-- NPV at `rate` of dated cashflows relative to `baseDate`
(`analysisService.js` lines 181-185, `stockService.js` lines 31-36). -/
def xirrNpv (cashflows : List Cashflow) (baseDate : ℤ) (rate : ℚ) : ℚ :=
  cashflows.foldl
    (fun acc cf => acc + cf.amount / (1 + rate) ^ ((cf.date - baseDate) / 365)) 0

/-- The bisection loop of `calculateXirr` (`analysisService.js` lines
187-204): `mid` persists across iterations and is returned (×100) after
100 iterations. -/
def xirrLoopA (npv : ℚ → ℚ) : ℕ → ℚ → ℚ → ℚ → ℚ
  | 0, _, _, mid => mid * 100
  | k + 1, low, high, _ =>
    let mid := (low + high) / 2
    let value := npv mid
    if |value| < tolQ then mid * 100
    else if value > 0 then xirrLoopA npv k mid high mid
    else xirrLoopA npv k low mid mid

/-- `calculateXirr` of `src/services/analysisService.js` (lines 165-205).
It returns the *number* `0` — not null — when fewer than 2 flows are
given or when every flow is filtered out (zero amount). -/
def calculateXirr (flows : List Cashflow) : ℚ :=
  if flows.length < 2 then 0
  else
    match (flows.filter fun cf => decide (cf.amount ≠ 0)).insertionSort cashflowBefore with
    | [] => 0
    | base :: rest =>
      xirrLoopA (xirrNpv (base :: rest) base.date) 100 (-9999 / 10000) 100 0

/-- The bisection loop of `calculateXIRR` (`stockService.js` lines
41-48): after 100 iterations it returns `(low + high) / 2 * 100`. -/
def xirrLoopS (npv : ℚ → ℚ) : ℕ → ℚ → ℚ → ℚ
  | 0, low, high => (low + high) / 2 * 100
  | k + 1, low, high =>
    let mid := (low + high) / 2
    let val := npv mid
    if |val| < tolQ then mid * 100
    else if val > 0 then xirrLoopS npv k mid high
    else xirrLoopS npv k low mid

/-- `calculateXIRR` of `src/services/stockService.js` (lines 20-49).
It returns `null` (`none`) only for fewer than 2 flows; amounts are
*not* filtered, so all-zero flows reach the bisection. -/
def calculateXIRRStock (flows : List Cashflow) : Option ℚ :=
  if flows.length < 2 then none
  else
    match flows.insertionSort cashflowBefore with
    | [] => none
    | t0 :: rest =>
      some (xirrLoopS (xirrNpv (t0 :: rest) t0.date) 100 (-9999 / 10000) 100)

/-- An `epf_transactions` row as read by `calculateEPFHoldings`
(`aggregationService.js` lines 252-277). -/
structure EpfTxn where
  employee_share : ℚ
  employer_share : ℚ
  pension_share : ℚ
  invest_type : String
  deriving DecidableEq, Repr

/-- The per-row amount: sum of the three share components. -/
def epfAmount (t : EpfTxn) : ℚ :=
  t.employee_share + t.employer_share + t.pension_share

/-- Output record of `calculateEPFHoldings`. -/
structure EpfHoldings where
  invested : ℚ
  interest : ℚ
  total : ℚ
  deriving DecidableEq, Repr

/-- One step of the `calculateEPFHoldings` loop over
`(deposits, interest, withdrawal)`: rows with non-positive amount are
skipped; a `withdraw`-typed row adds to `withdrawal`, an
`interest`-typed row to `interest`, anything else to `deposits`. -/
def epfStep (st : ℚ × ℚ × ℚ) (t : EpfTxn) : ℚ × ℚ × ℚ :=
  let amount := epfAmount t
  if amount ≤ 0 then st
  else
    let ty := t.invest_type.toLower
    if jsIncludes ty "withdraw" then (st.1, st.2.1, st.2.2 + amount)
    else if jsIncludes ty "interest" then (st.1, st.2.1 + amount, st.2.2)
    else (st.1 + amount, st.2.1, st.2.2)

/-- `calculateEPFHoldings` of `src/services/aggregationService.js`
(lines 252-277): `invested = max (deposits - withdrawal) 0`,
`interest` is the raw interest sum (withdrawals never touch it), and
`total = deposits + interest - withdrawal`. -/
def calculateEPFHoldings (txns : List EpfTxn) : EpfHoldings :=
  let s := txns.foldl epfStep (0, 0, 0)
  { invested := max (s.1 - s.2.2) 0, interest := s.2.1, total := s.1 + s.2.1 - s.2.2 }

/-- An EPF row counts (has positive amount). -/
def epfCounts (t : EpfTxn) : Bool := decide (0 < epfAmount t)

/-- Classified as a withdrawal by `calculateEPFHoldings`. -/
def epfIsWithdrawal (t : EpfTxn) : Bool := jsIncludes t.invest_type.toLower "withdraw"

/-- Classified as an interest credit by `calculateEPFHoldings`. -/
def epfIsInterest (t : EpfTxn) : Bool :=
  !epfIsWithdrawal t && jsIncludes t.invest_type.toLower "interest"

/-- Classified as a contribution by `calculateEPFHoldings`. -/
def epfIsDeposit (t : EpfTxn) : Bool := !epfIsWithdrawal t && !epfIsInterest t

/-- Sum of the counted amounts of the rows satisfying `p`. -/
def epfSumOf (p : EpfTxn → Bool) (txns : List EpfTxn) : ℚ :=
  ((txns.filter fun t => epfCounts t && p t).map epfAmount).sum

/-- A valid transaction date as used by `calculateBankHoldings`
(`aggregationService.js` lines 63-126): `ym` is the source's
`monthNumeric = year * 100 + (month + 1)` and `sub` the position within
the month, so chronological order is lexicographic `(ym, sub)`. -/
structure BankDate where
  ym : ℤ
  sub : ℤ
  deriving DecidableEq, Repr

/-- Chronological order on valid dates. -/
def bankDateLE (a b : BankDate) : Prop :=
  a.ym < b.ym ∨ (a.ym = b.ym ∧ a.sub ≤ b.sub)

instance : DecidableRel bankDateLE := by
  intro a b
  unfold bankDateLE
  exact inferInstance

/-- A `bank_transactions` row: `txn_date` is `none` for a missing or
unparseable date. -/
structure BankTxn where
  account_name : String
  bank_name : String
  account_type : String
  txn_date : Option BankDate
  amount : ℚ
  deriving DecidableEq, Repr

/-- Output of `calculateBankHoldings`. -/
structure BankHoldings where
  savings : ℚ
  demat : ℚ
  total : ℚ
  deriving DecidableEq, Repr

/-- The grouping key `account_name||bank_name||account_type` modelled as
a triple (the source's string join can collide on names containing the
delimiter; no claim depends on that). -/
def bankKey (t : BankTxn) : String × String × String :=
  (t.account_name, t.bank_name, t.account_type)

/-- The savings/demat pre-filter (`calculateBankHoldings` lines 68-71). -/
def bankFilter (txns : List BankTxn) : List BankTxn :=
  txns.filter fun t =>
    let ty := t.account_type.toLower
    ty == "savings" || ty == "demat"

/-- The latest `monthNumeric` over valid dates (`calculateBankHoldings`
lines 77-86); `none` models the `-Infinity` of an input without a
valid date. -/
def latestYm (txns : List BankTxn) : Option ℤ :=
  txns.foldl
    (fun acc t =>
      match t.txn_date with
      | some d =>
        match acc with
        | none => some d.ym
        | some m => some (max m d.ym)
      | none => acc)
    none

/-- The group keys in first-occurrence order (JS `Map` insertion
order, lines 92-97). -/
def bankKeys (txns : List BankTxn) : List (String × String × String) :=
  txns.foldl (fun acc t => if bankKey t ∈ acc then acc else acc ++ [bankKey t]) []

/-- The date of a transaction, defaulting like `new Date(undefined)`
(never reached: the sort input is pre-filtered to dated rows). -/
def dateD (t : BankTxn) : BankDate := t.txn_date.getD ⟨0, 0⟩

/-- The descending-date comparator of the per-group sort
(`calculateBankHoldings` line 105). -/
def bankDescBefore (a b : BankTxn) : Prop := bankDateLE (dateD b) (dateD a)

instance : DecidableRel bankDescBefore := by
  intro a b
  unfold bankDescBefore
  exact inferInstance

/-- The transaction `calculateBankHoldings` picks from one group (lines
103-111): drop undated rows, sort by date descending (stable), and take
the first row dated in month `m`. -/
def selectBankTxn (group : List BankTxn) (m : ℤ) : Option BankTxn :=
  ((group.filter fun t => t.txn_date.isSome).insertionSort bankDescBefore).find?
    fun t =>
      match t.txn_date with
      | some d => d.ym == m
      | none => false

/-- `calculateBankHoldings` of `src/services/aggregationService.js`
(lines 63-126): per-type sums of the latest transaction of each
`(account, bank, type)` group *within the latest month only*. -/
def calculateBankHoldings (txns : List BankTxn) : BankHoldings :=
  if txns.isEmpty then ⟨0, 0, 0⟩
  else
    let filtered := bankFilter txns
    if filtered.isEmpty then ⟨0, 0, 0⟩
    else
      match latestYm filtered with
      | none => ⟨0, 0, 0⟩
      | some m =>
        if m < 0 then ⟨0, 0, 0⟩
        else
          let s := (bankKeys filtered).foldl
            (fun acc k =>
              match selectBankTxn (filtered.filter fun t => bankKey t == k) m with
              | none => acc
              | some t =>
                let ty := t.account_type.toLower
                if ty == "savings" then (acc.1 + t.amount, acc.2)
                else if ty == "demat" then (acc.1, acc.2 + t.amount)
                else acc)
            ((0 : ℚ), (0 : ℚ))
          ⟨s.1, s.2, s.1 + s.2⟩

/-- The numeric inputs of `getDashboardAssetAllocation`
(`src/services/dashboardService.js` lines 53-182): the per-asset-class
aggregator outputs and the total equity charges. -/
structure DashData where
  stockMV : ℚ
  stockInv : ℚ
  etfMV : ℚ
  etfInv : ℚ
  mfMV : ℚ
  mfInv : ℚ
  bankTotal : ℚ
  ppfMV : ℚ
  ppfInv : ℚ
  epfTotal : ℚ
  epfInv : ℚ
  epfInterest : ℚ
  npsMV : ℚ
  npsInv : ℚ
  fdMV : ℚ
  fdInv : ℚ
  totalEquityCharges : ℚ
  deriving DecidableEq, Repr

/-- One pre-enrichment asset row (`dashboardService.js` lines 97-146). -/
structure DashRow where
  assetType : String
  marketValue : ℚ
  investedValue : ℚ
  simpleProfit : ℚ
  deriving DecidableEq, Repr

/-- The eight asset rows (`dashboardService.js` lines 97-146); the
equity charges are subtracted from the Stock row's invested value. -/
def dashRows (d : DashData) : List DashRow :=
  [⟨"Stock", d.stockMV, d.stockInv - d.totalEquityCharges,
      d.stockMV - (d.stockInv - d.totalEquityCharges)⟩,
   ⟨"ETF", d.etfMV, d.etfInv, d.etfMV - d.etfInv⟩,
   ⟨"MF", d.mfMV, d.mfInv, d.mfMV - d.mfInv⟩,
   ⟨"Bank", d.bankTotal, d.bankTotal, 0⟩,
   ⟨"PPF", d.ppfMV, d.ppfInv, d.ppfMV - d.ppfInv⟩,
   ⟨"EPF", d.epfTotal, d.epfInv, d.epfInterest⟩,
   ⟨"NPS", d.npsMV, d.npsInv, d.npsMV - d.npsInv⟩,
   ⟨"FD", d.fdMV, d.fdInv, d.fdMV - d.fdInv⟩]

/-- `totalInvestedValue` (`dashboardService.js` lines 93-94): the sum of
all per-class invested amounts minus the equity charges. -/
def totalInvestedValue (d : DashData) : ℚ :=
  d.stockInv + d.etfInv + d.mfInv + d.bankTotal + d.ppfInv + d.epfInv +
    d.npsInv + d.fdInv - d.totalEquityCharges

/-- `totalMarketValue` (`dashboardService.js` line 149): summed over the
rows. -/
def totalMarketValue (d : DashData) : ℚ :=
  ((dashRows d).map DashRow.marketValue).sum

/-- An enriched row (`dashboardService.js` lines 153-159), keeping the
two allocation percentages the claim is about. -/
structure EnrichedRow where
  assetType : String
  marketAllocation : ℚ
  investedAllocation : ℚ
  deriving DecidableEq, Repr

/-- The allocation enrichment (`dashboardService.js` lines 153-159):
percentages are 0 whenever the respective total is not positive. -/
def enrichedRows (d : DashData) : List EnrichedRow :=
  (dashRows d).map fun row =>
    { assetType := row.assetType
      marketAllocation :=
        if totalMarketValue d > 0 then row.marketValue / totalMarketValue d * 100 else 0
      investedAllocation :=
        if totalInvestedValue d > 0 then row.investedValue / totalInvestedValue d * 100
        else 0 }

/-- One call to `addToAccount` in `getAnalysisDashboard`
(`analysisService.js` lines 248-269): the contribution of one asset
slice to one account. `accountName` is `""` for the JS `null`. -/
structure Contribution where
  accountName : String
  invested : ℚ
  marketValue : ℚ
  assetType : String
  deriving DecidableEq, Repr

/-- One breakdown bucket (`account.breakdown[typeKey]`). -/
structure BucketTotals where
  invested : ℚ
  marketValue : ℚ
  deriving DecidableEq, Repr

/-- One account's running totals (`accountTotals.get(key)`). -/
structure AccountTotals where
  invested : ℚ
  marketValue : ℚ
  breakdown : List (String × BucketTotals)
  deriving DecidableEq, Repr

/-- Update the entry at `k` of an insertion-ordered association list,
creating it from `dflt` at the end when absent (JS `Map` / plain-object
semantics). -/
def assocUpdate {α : Type} (m : List (String × α)) (k : String) (dflt : α)
    (f : α → α) : List (String × α) :=
  match m with
  | [] => [(k, f dflt)]
  | (k0, v) :: rest =>
    if k0 == k then (k0, f v) :: rest else (k0, v) :: assocUpdate rest k dflt f

/-- `addToAccount` of `src/services/analysisService.js` (lines 248-269):
contributions whose trimmed, upper-cased account name is `BDM` are
dropped; a blank name maps to `Other Accounts`; a blank asset type to
`Uncategorized`. -/
def addToAccount (m : List (String × AccountTotals)) (c : Contribution) :
    List (String × AccountTotals) :=
  let normalizedName := c.accountName.trim
  if normalizedName.toUpper == "BDM" then m
  else
    let key := if normalizedName == "" then "Other Accounts" else normalizedName
    let typeKey := if c.assetType == "" then "Uncategorized" else c.assetType.trim
    assocUpdate m key ⟨0, 0, []⟩ fun a =>
      { invested := a.invested + c.invested
        marketValue := a.marketValue + c.marketValue
        breakdown := assocUpdate a.breakdown typeKey ⟨0, 0⟩ fun b =>
          ⟨b.invested + c.invested, b.marketValue + c.marketValue⟩ }

/-- The `accountTotals` map after `getAnalysisDashboard` has routed every
contribution through `addToAccount` (lines 271-423). -/
def buildAccountTotals (cs : List Contribution) : List (String × AccountTotals) :=
  cs.foldl addToAccount []

/-- A contribution `addToAccount` silently drops. -/
def isBDM (c : Contribution) : Bool := c.accountName.trim.toUpper == "BDM"

/-- The FIFO test ledger: Buy 100 units at nav 10 on day 1, Buy 50 units
at nav 12 on day 2, Sell 120 units on day 3 (sell nav irrelevant to the
ledger). -/
def mfFifoTxns : List MfTxn :=
  [⟨"F", "A", "Buy", 100, 10, some 1⟩,
   ⟨"F", "A", "Buy", 50, 12, some 2⟩,
   ⟨"F", "A", "Sell", 120, 11, some 3⟩]

/-- The partial-exit input of the repo's own test
(`src/tests/analysisService.test.js` lines 33-50): one account, Buy 100
units at nav 10, then Sell 50 units at nav 12. -/
def anPartialExit : List (List MfTxn) :=
  [[⟨"Test Fund", "Account1", "Buy", 100, 10, some 1⟩,
    ⟨"Test Fund", "Account1", "Sell", -50, 12, some 2⟩]]

/-- A buy with a negative nav, as `calculateMFLots` accepts it. -/
def mfNegNavTxns : List MfTxn := [⟨"F", "A", "Buy", 10, -5, some 1⟩]

/-- EPF rows: contribute 100, credit 50 interest, withdraw 30. -/
def epfCxTxns : List EpfTxn :=
  [⟨100, 0, 0, "Contribution"⟩, ⟨50, 0, 0, "Interest"⟩, ⟨30, 0, 0, "Withdrawal"⟩]

/-- Bank rows over two months: in 2024-03 account `a1` reports 100 then
150 (savings) and account `a2` reports 50 (demat); in 2024-02 account
`a1` reported 999. -/
def bankTwoMonths : List BankTxn :=
  [⟨"a1", "b1", "Savings", some ⟨202403, 10⟩, 100⟩,
   ⟨"a1", "b1", "Savings", some ⟨202403, 20⟩, 150⟩,
   ⟨"a1", "b1", "Savings", some ⟨202402, 15⟩, 999⟩,
   ⟨"a2", "b1", "Demat", some ⟨202403, 5⟩, 50⟩]

/-- `bankTwoMonths` with the prior-month (2024-02) amount changed from
999 to 111. -/
def bankTwoMonthsAlt : List BankTxn :=
  [⟨"a1", "b1", "Savings", some ⟨202403, 10⟩, 100⟩,
   ⟨"a1", "b1", "Savings", some ⟨202403, 20⟩, 150⟩,
   ⟨"a1", "b1", "Savings", some ⟨202402, 15⟩, 111⟩,
   ⟨"a2", "b1", "Demat", some ⟨202403, 5⟩, 50⟩]

/-- A dashboard input with every aggregate equal to 1 and no charges. -/
def dashOnes : DashData := ⟨1, 1, 1, 1, 1, 1, 1, 1, 1, 1, 1, 1, 1, 1, 1, 1, 0⟩

/-- The all-zero dashboard input. -/
def dashZero : DashData := ⟨0, 0, 0, 0, 0, 0, 0, 0, 0, 0, 0, 0, 0, 0, 0, 0, 0⟩

/-- Contributions from a `BDM` account (two spellings) and a normal
account. -/
def bdmContribs : List Contribution :=
  [⟨"BDM", 5, 6, "Equity"⟩, ⟨" bdm ", 7, 8, "ETF"⟩, ⟨"Acc", 1, 2, "Equity"⟩]

/-- The `a1` savings group of `bankTwoMonths`. -/
def bankA1 : List BankTxn :=
  [⟨"a1", "b1", "Savings", some ⟨202403, 10⟩, 100⟩,
   ⟨"a1", "b1", "Savings", some ⟨202403, 20⟩, 150⟩,
   ⟨"a1", "b1", "Savings", some ⟨202402, 15⟩, 999⟩]

/-! ## Theorems -/

theorem epsQ_pos : 0 < epsQ := by norm_num [epsQ]

theorem bankDateLE_refl (a : BankDate) : bankDateLE a a := Or.inr ⟨rfl, le_refl _⟩

/-- C1: for a fresh ledger processing Buy(100 @ 10, day1),
Buy(50 @ 12, day2), Sell(120, day3), FIFO consumption takes 100 units
from the day-1 lot and 20 from the day-2 lot, leaving exactly one open
lot of 30 units with cost basis 360, so the resulting holding has
units = 30 and invested = 360 (here with cmp = 12, so marketValue 360). -/
theorem mf_fifo_order :
    mfLedger mfFifoTxns "F" "A" = [⟨30, 360, some 2, 1⟩] ∧
    mfHolding mfFifoTxns "F" "A" 12 = some ⟨30, 360, 360⟩ :=
  ⟨by with_unfolding_all rfl, by with_unfolding_all rfl⟩

/-- C2: on Buy 100 @ 10 then Sell 50 @ 12 (cmp 15), `getAnalysisSummary`
emits the expected closed holding (units 50, invested 500, closed value
600) but *no* active holding — the line-817 guard suppresses active
holdings for any fund with closed lots — even though the ledger still
holds an open lot of 50 units costing 500.  The repo's own test expects
an active holding with units 50, invested 500, marketValue 750. -/
theorem an_partial_exit_eval :
    anFundSummary anPartialExit 15 14 = ([], [⟨500, 600, 50⟩]) ∧
    (anFundState anPartialExit).openLots = [⟨50, 500, 10, some 1, 0⟩] :=
  ⟨by with_unfolding_all rfl, by with_unfolding_all rfl⟩

/-- C4 counterexample: with two cashflows of amount 0 the stock solver
returns the number 4950.005 (the first bisection midpoint ×100), not
null; and the analysis solver returns the plain number 0 (not null) for
an empty input. -/
theorem xirr_not_null_cx :
    calculateXIRRStock [⟨0, 0⟩, ⟨0, 365⟩] = some (990001 / 200) ∧
    calculateXirr [] = 0 :=
  ⟨by with_unfolding_all rfl, by with_unfolding_all rfl⟩

/-- C4 amended: the stock solver returns null exactly for fewer than two
cashflows (all-zero amounts still produce a numeric rate); the analysis
solver never returns null — it returns the number 0 for fewer than two
cashflows or when every amount is zero. -/
theorem xirr_guards :
    (∀ flows : List Cashflow, flows.length < 2 → calculateXIRRStock flows = none) ∧
    (∀ flows : List Cashflow, (∀ cf ∈ flows, cf.amount = 0) → calculateXirr flows = 0) := by
  constructor
  · intro flows h
    unfold calculateXIRRStock
    rw [if_pos h]
  · intro flows h
    unfold calculateXirr
    by_cases hl : flows.length < 2
    · rw [if_pos hl]
    · rw [if_neg hl]
      have hf : flows.filter (fun cf => decide (cf.amount ≠ 0)) = [] := by
        rw [List.filter_eq_nil_iff]
        intro a ha
        simp [h a ha]
      rw [hf]
      rfl

/-- Witness for `xirr_guards` at concrete inputs. -/
theorem xirr_guards_witness :
    calculateXIRRStock [] = none ∧ calculateXirr [⟨0, 0⟩, ⟨0, 365⟩] = 0 := by
  constructor
  · exact xirr_guards.1 [] (by simp)
  · apply xirr_guards.2 [⟨0, 0⟩, ⟨0, 365⟩]
    intro cf hcf
    rcases List.mem_cons.mp hcf with rfl | h2
    · rfl
    · rcases List.mem_cons.mp h2 with rfl | h3
      · rfl
      · cases h3

/-- C5: on the cashflows (−1000 at day 0, +1100 at day 365) both
bisection solvers return a percentage within 0.01 of 10. -/
theorem xirr_ten_percent :
    |calculateXirr [⟨-1000, 0⟩, ⟨1100, 365⟩] - 10| < 1 / 100 ∧
    |(calculateXIRRStock [⟨-1000, 0⟩, ⟨1100, 365⟩]).getD 0 - 10| < 1 / 100 :=
  ⟨by with_unfolding_all rfl, by with_unfolding_all rfl⟩

/-- C6 counterexample: on contribute 100, interest 50, withdraw 30 the
code leaves the interest pool untouched (interest 50, invested 70),
whereas an interest-first withdrawal would give interest 20 and
invested 100. -/
theorem epf_not_interest_first_cx :
    calculateEPFHoldings epfCxTxns = ⟨70, 50, 120⟩ ∧
    ((70 : ℚ) ≠ 100) ∧ ((50 : ℚ) ≠ 20) :=
  ⟨by with_unfolding_all rfl, by norm_num, by norm_num⟩

theorem epfSumOf_cons (p : EpfTxn → Bool) (t : EpfTxn) (ts : List EpfTxn) :
    epfSumOf p (t :: ts) =
      (if (epfCounts t && p t) = true then epfAmount t else 0) + epfSumOf p ts := by
  unfold epfSumOf
  rw [List.filter_cons]
  split
  · simp
  · simp

theorem epfFold (txns : List EpfTxn) : ∀ st : ℚ × ℚ × ℚ,
    txns.foldl epfStep st =
      (st.1 + epfSumOf epfIsDeposit txns, st.2.1 + epfSumOf epfIsInterest txns,
       st.2.2 + epfSumOf epfIsWithdrawal txns) := by
  induction txns with
  | nil => intro st; simp [epfSumOf]
  | cons t ts ih =>
    intro st
    rw [List.foldl_cons, ih]
    rw [epfSumOf_cons, epfSumOf_cons, epfSumOf_cons]
    unfold epfStep
    by_cases h0 : epfAmount t ≤ 0
    · have hc : epfCounts t = false := by
        unfold epfCounts
        simp [not_lt.mpr h0]
      simp [h0, hc]
    · have hc : epfCounts t = true := by
        unfold epfCounts
        simp [lt_of_not_ge h0]
      rw [if_neg h0]
      by_cases hw : jsIncludes t.invest_type.toLower "withdraw"
      · have h1 : epfIsWithdrawal t = true := hw
        have h2 : epfIsInterest t = false := by unfold epfIsInterest epfIsWithdrawal; simp [hw]
        have h3 : epfIsDeposit t = false := by unfold epfIsDeposit epfIsWithdrawal; simp [hw]
        simp only [if_pos hw, hc, h1, h2, h3, Bool.and_true, Bool.and_false]
        simp
        ring
      · rw [if_neg hw]
        have h1 : epfIsWithdrawal t = false := by
          unfold epfIsWithdrawal
          exact Bool.eq_false_iff.mpr hw
        by_cases hi : jsIncludes t.invest_type.toLower "interest"
        · have h2 : epfIsInterest t = true := by
            unfold epfIsInterest
            simp [h1, hi]
          have h3 : epfIsDeposit t = false := by unfold epfIsDeposit; simp [h2]
          simp only [if_pos hi, hc, h1, h2, h3, Bool.and_true, Bool.and_false]
          simp
          ring
        · rw [if_neg hi]
          have h2 : epfIsInterest t = false := by
            unfold epfIsInterest
            simp [Bool.eq_false_iff.mpr hi]
          have h3 : epfIsDeposit t = true := by unfold epfIsDeposit; simp [h1, h2]
          simp only [hc, h1, h2, h3, Bool.and_true, Bool.and_false]
          simp
          ring

/-- C6 amended: `calculateEPFHoldings` applies withdrawals wholly
against principal, clamped at 0; the interest pool is the untouched sum
of interest credits, and
`total = deposits + interest - withdrawals`. -/
theorem epf_characterization : ∀ txns : List EpfTxn,
    calculateEPFHoldings txns =
      { invested := max (epfSumOf epfIsDeposit txns - epfSumOf epfIsWithdrawal txns) 0
        interest := epfSumOf epfIsInterest txns
        total := epfSumOf epfIsDeposit txns + epfSumOf epfIsInterest txns -
          epfSumOf epfIsWithdrawal txns } := by
  intro txns
  unfold calculateEPFHoldings
  rw [epfFold txns (0, 0, 0)]
  simp




theorem units_sum_nonneg {l : List Lot} (h : ∀ lot ∈ l, epsQ < lot.units) :
    0 ≤ (l.map Lot.units).sum := by
  apply List.sum_nonneg
  intro x hx
  rcases List.mem_map.mp hx with ⟨lot, hlot, rfl⟩
  exact le_of_lt (lt_trans epsQ_pos (h lot hlot))

theorem reduceLoop_drains : ∀ (l : List Lot) (d : ℚ),
    (∀ lot ∈ l, epsQ < lot.units) → (l.map Lot.units).sum ≤ d →
    reduceLoop l d = [] := by
  intro l
  induction l with
  | nil => intro d _ _; rfl
  | cons lot rest ih =>
    intro d h hsum
    have hrest : ∀ x ∈ rest, epsQ < x.units := fun x hx => h x (List.mem_cons_of_mem _ hx)
    have hsum' : (rest.map Lot.units).sum ≥ 0 := units_sum_nonneg hrest
    have hl : lot.units ≤ d := by
      have := hsum
      simp only [List.map_cons, List.sum_cons] at this
      linarith
    have hd : ¬ d ≤ epsQ := not_le.mpr (lt_of_lt_of_le (h lot (List.mem_cons_self _ _)) hl)
    unfold reduceLoop
    rw [if_neg hd]
    have hmin : min d lot.units = lot.units := min_eq_right hl
    rw [hmin]
    have hz : lot.units - lot.units ≤ epsQ := by
      simp
      exact le_of_lt epsQ_pos
    rw [if_pos hz]
    apply ih
    · exact hrest
    · have := hsum
      simp only [List.map_cons, List.sum_cons] at this
      linarith

theorem reduceLotUnits_drains (lots : List Lot) (d : ℚ)
    (h : ∀ lot ∈ lots, epsQ < lot.units) (hsum : (lots.map Lot.units).sum ≤ d) :
    reduceLotUnits lots d = [] := by
  unfold reduceLotUnits sortLotsFifo
  have hperm : List.Perm (lots.insertionSort lotBefore) lots := List.perm_insertionSort _ _
  apply reduceLoop_drains
  · intro lot hlot
    exact h lot (hperm.mem_iff.mp hlot)
  · rw [List.Perm.sum_eq (hperm.map Lot.units)]
    exact hsum



theorem unitsA_sum_nonneg {l : List LotA} (h : ∀ lot ∈ l, epsQ < lot.units) :
    0 ≤ (l.map LotA.units).sum := by
  apply List.sum_nonneg
  intro x hx
  rcases List.mem_map.mp hx with ⟨lot, hlot, rfl⟩
  exact le_of_lt (lt_trans epsQ_pos (h lot hlot))

theorem consumeLoop_drains : ∀ (l : List LotA) (d : ℚ),
    (∀ lot ∈ l, epsQ < lot.units) → (l.map LotA.units).sum ≤ d →
    (consumeLoop l d).lots = [] ∧
    ((consumeLoop l d).consumed.map ConsumedPortion.units).sum = (l.map LotA.units).sum ∧
    (consumeLoop l d).remaining = d - (l.map LotA.units).sum := by
  intro l
  induction l with
  | nil =>
    intro d _ _
    refine ⟨rfl, by simp [consumeLoop], by simp [consumeLoop]⟩
  | cons lot rest ih =>
    intro d h hsum
    have hrest : ∀ x ∈ rest, epsQ < x.units := fun x hx => h x (List.mem_cons_of_mem _ hx)
    have hsum0 : (rest.map LotA.units).sum ≥ 0 := unitsA_sum_nonneg hrest
    have hlu : epsQ < lot.units := h lot (List.mem_cons_self _ _)
    have hl : lot.units ≤ d := by
      have := hsum
      simp only [List.map_cons, List.sum_cons] at this
      linarith
    have hd : ¬ d ≤ epsQ := not_le.mpr (lt_of_lt_of_le hlu hl)
    have hrec := ih (d - lot.units) hrest
      (by
        have := hsum
        simp only [List.map_cons, List.sum_cons] at this
        linarith)
    unfold consumeLoop
    rw [if_neg hd, if_neg (not_le.mpr hlu)]
    have hmin : min d lot.units = lot.units := min_eq_right hl
    have hz : lot.units - lot.units ≤ epsQ ∨
        lot.cost - lot.units * (if lot.units > epsQ then lot.cost / lot.units else lot.nav) ≤ epsQ :=
      Or.inl (by simp; exact le_of_lt epsQ_pos)
    simp only [hmin, if_pos hz]
    refine ⟨hrec.1, ?_, ?_⟩
    · simp only [List.map_cons, List.sum_cons, hrec.2.1]
    · simp only [hrec.2.2, List.map_cons, List.sum_cons]
      ring

theorem consumeLots_drains (lots : List LotA) (d : ℚ)
    (h : ∀ lot ∈ lots, epsQ < lot.units) (hsum : (lots.map LotA.units).sum ≤ d) :
    (consumeLots lots d).lots = [] ∧
    ((consumeLots lots d).consumed.map ConsumedPortion.units).sum = (lots.map LotA.units).sum ∧
    (consumeLots lots d).remaining = d - (lots.map LotA.units).sum := by
  unfold consumeLots
  have hperm : List.Perm (lots.insertionSort lotABefore) lots := List.perm_insertionSort _ _
  have hs : ((lots.insertionSort lotABefore).map LotA.units).sum = (lots.map LotA.units).sum :=
    List.Perm.sum_eq (hperm.map LotA.units)
  have := consumeLoop_drains (lots.insertionSort lotABefore) d
    (fun lot hlot => h lot (hperm.mem_iff.mp hlot)) (by rw [hs]; exact hsum)
  rw [hs] at this
  exact this

/-- C8: a sell demanding at least the total open units terminates,
consumes exactly the available units leaving the ledger empty (in both
`reduceLotUnits` and `consumeLots`, whose `remaining` result carries the
silently dropped excess), and the resulting ledger state equals the one
after selling exactly the available units, so later buys are
unaffected. -/
theorem oversell_drops_excess :
    (∀ (lots : List Lot) (demand : ℚ), (∀ lot ∈ lots, epsQ < lot.units) →
      (lots.map Lot.units).sum ≤ demand →
      reduceLotUnits lots demand = [] ∧
      reduceLotUnits lots ((lots.map Lot.units).sum) = []) ∧
    (∀ (lots : List LotA) (demand : ℚ), (∀ lot ∈ lots, epsQ < lot.units) →
      (lots.map LotA.units).sum ≤ demand →
      (consumeLots lots demand).lots = [] ∧
      ((consumeLots lots demand).consumed.map ConsumedPortion.units).sum =
        (lots.map LotA.units).sum ∧
      (consumeLots lots demand).remaining = demand - (lots.map LotA.units).sum ∧
      (consumeLots lots ((lots.map LotA.units).sum)).lots = []) := by
  constructor
  · intro lots demand h hsum
    exact ⟨reduceLotUnits_drains lots demand h hsum,
      reduceLotUnits_drains lots _ h (le_refl _)⟩
  · intro lots demand h hsum
    obtain ⟨h1, h2, h3⟩ := consumeLots_drains lots demand h hsum
    exact ⟨h1, h2, h3, (consumeLots_drains lots _ h (le_refl _)).1⟩

theorem oversell_witness :
    reduceLotUnits [⟨5, 50, none, 0⟩] 7 = [] ∧
    (consumeLots [⟨5, 50, 10, none, 0⟩] 7).lots = [] ∧
    (consumeLots [⟨5, 50, 10, none, 0⟩] 7).remaining = 7 - 5 := by
  have hmem : ∀ lot ∈ [(⟨5, 50, none, 0⟩ : Lot)], epsQ < lot.units := by
    intro lot hl
    rcases List.mem_cons.mp hl with rfl | h2
    · norm_num [epsQ]
    · cases h2
  have hmemA : ∀ lot ∈ [(⟨5, 50, 10, none, 0⟩ : LotA)], epsQ < lot.units := by
    intro lot hl
    rcases List.mem_cons.mp hl with rfl | h2
    · norm_num [epsQ]
    · cases h2
  have hsum : (([(⟨5, 50, none, 0⟩ : Lot)]).map Lot.units).sum ≤ 7 := by norm_num
  have hsumA : (([(⟨5, 50, 10, none, 0⟩ : LotA)]).map LotA.units).sum ≤ 7 := by norm_num
  refine ⟨(oversell_drops_excess.1 _ 7 hmem hsum).1, ?_, ?_⟩
  · exact (oversell_drops_excess.2 _ 7 hmemA hsumA).1
  · have := (oversell_drops_excess.2 _ 7 hmemA hsumA).2.2.1
    simpa using this



theorem cost_sub_portion_nonneg (cost units d : ℚ) (hc : 0 ≤ cost) (hd : 0 ≤ d)
    (hdu : d ≤ units) (hu : units ≠ 0) : 0 ≤ cost - d * (cost / units) := by
  have hu0 : 0 < units := lt_of_le_of_ne (le_trans hd hdu) (Ne.symm hu)
  have key : cost - d * (cost / units) = cost * (units - d) / units := by
    field_simp
    ring
  rw [key]
  apply div_nonneg
  · exact mul_nonneg hc (by linarith)
  · exact le_of_lt hu0

def lotOK (lot : Lot) : Prop := 0 ≤ lot.units ∧ 0 ≤ lot.cost

theorem reduceLoop_nonneg : ∀ (l : List Lot) (r : ℚ),
    (∀ lot ∈ l, lotOK lot) → ∀ lot ∈ reduceLoop l r, lotOK lot := by
  intro l
  induction l with
  | nil => intro r _ lot hlot; cases hlot
  | cons hd tl ih =>
    intro r h lot hlot
    have hhd := h hd (List.mem_cons_self _ _)
    have htl : ∀ x ∈ tl, lotOK x := fun x hx => h x (List.mem_cons_of_mem _ hx)
    unfold reduceLoop at hlot
    by_cases hr : r ≤ epsQ
    · rw [if_pos hr] at hlot
      exact h lot hlot
    · rw [if_neg hr] at hlot
      have hr0 : 0 < r := lt_trans epsQ_pos (not_le.mp hr)
      have hded0 : 0 ≤ min r hd.units := le_min (le_of_lt hr0) hhd.1
      by_cases hu : hd.units - min r hd.units ≤ epsQ
      · simp only [if_pos hu] at hlot
        exact ih (r - min r hd.units) htl lot hlot
      · simp only [if_neg hu] at hlot
        rcases List.mem_cons.mp hlot with rfl | hmem
        · constructor
          · simp only
            have := min_le_right r hd.units
            linarith
          · simp only
            by_cases hz : hd.units = 0
            · rw [if_pos hz]
              simpa using hhd.2
            · rw [if_neg hz]
              exact cost_sub_portion_nonneg hd.cost hd.units (min r hd.units) hhd.2 hded0
                (min_le_right _ _) hz
        · exact htl lot hmem

theorem reduceLotUnits_nonneg (lots : List Lot) (r : ℚ)
    (h : ∀ lot ∈ lots, lotOK lot) : ∀ lot ∈ reduceLotUnits lots r, lotOK lot := by
  unfold reduceLotUnits sortLotsFifo
  apply reduceLoop_nonneg
  intro lot hlot
  exact h lot ((List.perm_insertionSort lotBefore lots).mem_iff.mp hlot)



theorem reduceLoopAgg_nonneg : ∀ (l : List Lot) (r : ℚ),
    (∀ lot ∈ l, lotOK lot) → ∀ lot ∈ reduceLoopAgg l r, lotOK lot := by
  intro l
  induction l with
  | nil => intro r _ lot hlot; cases hlot
  | cons hd tl ih =>
    intro r h lot hlot
    have htl : ∀ x ∈ tl, lotOK x := fun x hx => h x (List.mem_cons_of_mem _ hx)
    unfold reduceLoopAgg at hlot
    by_cases hr : r ≤ epsQ
    · rw [if_pos hr] at hlot
      exact h lot hlot
    · rw [if_neg hr] at hlot
      by_cases hu : hd.units - min r hd.units ≤ epsQ ∨
          hd.cost - min r hd.units *
            (if hd.units = 0 then 0 else hd.cost / hd.units) ≤ epsQ
      · simp only [if_pos hu] at hlot
        exact ih (r - min r hd.units) htl lot hlot
      · simp only [if_neg hu] at hlot
        rcases List.mem_cons.mp hlot with rfl | hmem
        · exact ⟨le_max_right _ _, le_max_right _ _⟩
        · exact htl lot hmem

theorem reduceLotUnitsAgg_nonneg (lots : List Lot) (r : ℚ)
    (h : ∀ lot ∈ lots, lotOK lot) : ∀ lot ∈ reduceLotUnitsAgg lots r, lotOK lot := by
  unfold reduceLotUnitsAgg
  by_cases he : lots.isEmpty
  · rw [if_pos he]
    exact h
  · rw [if_neg he]
    by_cases hr : r ≤ epsQ
    · rw [if_pos hr]
      exact h
    · rw [if_neg hr]
      unfold sortLotsFifo
      apply reduceLoopAgg_nonneg
      intro lot hlot
      exact h lot ((List.perm_insertionSort lotBefore lots).mem_iff.mp hlot)

def lotAOK (lot : LotA) : Prop := 0 ≤ lot.units ∧ 0 ≤ lot.cost

theorem consumeLoop_nonneg : ∀ (l : List LotA) (r : ℚ),
    (∀ lot ∈ l, lotAOK lot) → ∀ lot ∈ (consumeLoop l r).lots, lotAOK lot := by
  intro l
  induction l with
  | nil => intro r _ lot hlot; cases hlot
  | cons hd tl ih =>
    intro r h lot hlot
    have hhd := h hd (List.mem_cons_self _ _)
    have htl : ∀ x ∈ tl, lotAOK x := fun x hx => h x (List.mem_cons_of_mem _ hx)
    unfold consumeLoop at hlot
    by_cases hr : r ≤ epsQ
    · rw [if_pos hr] at hlot
      exact h lot hlot
    · rw [if_neg hr] at hlot
      by_cases hskip : hd.units ≤ epsQ
      · rw [if_pos hskip] at hlot
        exact ih r htl lot hlot
      · rw [if_neg hskip] at hlot
        have hr0 : 0 < r := lt_trans epsQ_pos (not_le.mp hr)
        have hu0 : 0 < hd.units := lt_trans epsQ_pos (not_le.mp hskip)
        have hded0 : 0 ≤ min r hd.units := le_min (le_of_lt hr0) hhd.1
        by_cases hev : hd.units - min r hd.units ≤ epsQ ∨
            hd.cost - min r hd.units *
              (if hd.units > epsQ then hd.cost / hd.units else hd.nav) ≤ epsQ
        · simp only [if_pos hev] at hlot
          exact ih (r - min r hd.units) htl lot hlot
        · simp only [if_neg hev] at hlot
          rcases List.mem_cons.mp hlot with rfl | hmem
          · constructor
            · simp only
              have := min_le_right r hd.units
              linarith
            · simp only
              rw [if_pos (not_le.mp hskip)]
              exact cost_sub_portion_nonneg hd.cost hd.units (min r hd.units) hhd.2 hded0
                (min_le_right _ _) (ne_of_gt hu0)
          · exact htl lot hmem

theorem consumeLots_nonneg (lots : List LotA) (r : ℚ)
    (h : ∀ lot ∈ lots, lotAOK lot) : ∀ lot ∈ (consumeLots lots r).lots, lotAOK lot := by
  unfold consumeLots
  apply consumeLoop_nonneg
  intro lot hlot
  exact h lot ((List.perm_insertionSort lotABefore lots).mem_iff.mp hlot)



theorem mfPrepare_nav_origin (txns : List MfTxn) :
    ∀ t ∈ mfPrepare txns, ∃ raw ∈ txns, t.nav = raw.nav := by
  intro t ht
  unfold mfPrepare at ht
  have ht2 := (List.perm_insertionSort mfTxnBefore _).mem_iff.mp ht
  have ht3 := List.mem_of_mem_filter ht2
  rcases List.mem_filterMap.mp ht3 with ⟨p, hp, hf⟩
  by_cases hname : p.2.fund_short_name.trim = ""
  · rw [if_pos hname] at hf
    cases hf
  · rw [if_neg hname] at hf
    have : p.2 ∈ txns := by
      have := List.mem_map_of_mem Prod.snd hp
      rwa [List.enum_map_snd] at this
    exact ⟨p.2, this, by cases hf; rfl⟩

theorem mfFold_nonneg : ∀ (ts : List MfPrepared) (lots : List Lot),
    (∀ t ∈ ts, 0 ≤ t.nav) → (∀ lot ∈ lots, lotOK lot) →
    ∀ lot ∈ ts.foldl mfStep lots, lotOK lot := by
  intro ts
  induction ts with
  | nil => intro lots _ h lot hlot; exact h lot hlot
  | cons t rest ih =>
    intro lots hnav h lot hlot
    rw [List.foldl_cons] at hlot
    apply ih (mfStep lots t) (fun x hx => hnav x (List.mem_cons_of_mem _ hx)) _ lot hlot
    intro x hx
    unfold mfStep at hx
    by_cases hbuy : jsIncludes t.type "buy" = true ∧ t.units > 0
    · rw [if_pos hbuy] at hx
      rcases List.mem_append.mp hx with hmem | hnew
      · exact h x hmem
      · rcases List.mem_cons.mp hnew with rfl | hemp
        · exact ⟨le_of_lt hbuy.2,
            mul_nonneg (le_of_lt hbuy.2) (hnav t (List.mem_cons_self _ _))⟩
        · cases hemp
    · rw [if_neg hbuy] at hx
      by_cases hsale : t.units < 0 ∨ (fifoSaleKeywords.any fun kw => jsIncludes t.type kw) = true
      · rw [if_pos hsale] at hx
        exact reduceLotUnits_nonneg lots _ h x hx
      · rw [if_neg hsale] at hx
        exact h x hx

theorem mfLedger_nonneg (txns : List MfTxn) (fund account : String)
    (hnav : ∀ t ∈ txns, 0 ≤ t.nav) :
    ∀ lot ∈ mfLedger txns fund account, lotOK lot := by
  unfold mfLedger
  apply mfFold_nonneg
  · intro t ht
    rcases mfPrepare_nav_origin txns t (List.mem_of_mem_filter ht) with ⟨raw, hraw, he⟩
    rw [he]
    exact hnav raw hraw
  · intro lot hlot
    cases hlot

theorem anStep_nonneg (st : AnState) (t : MfPrepared)
    (h : ∀ lot ∈ st.openLots, lotAOK lot) :
    ∀ lot ∈ (anStep st t).openLots, lotAOK lot := by
  intro x hx
  unfold anStep at hx
  by_cases hskip : |t.units| ≤ epsQ ∨ t.nav ≤ 0
  · rw [if_pos hskip] at hx
    exact h x hx
  · rw [if_neg hskip] at hx
    push_neg at hskip
    by_cases hbuy : t.type = "buy" ∧ t.units > 0
    · rw [if_pos hbuy] at hx
      rcases List.mem_append.mp hx with hmem | hnew
      · exact h x hmem
      · rcases List.mem_cons.mp hnew with rfl | hemp
        · exact ⟨le_of_lt hbuy.2, mul_nonneg (le_of_lt hbuy.2) (le_of_lt hskip.2)⟩
        · cases hemp
    · rw [if_neg hbuy] at hx
      by_cases hsell : t.type = "sell"
      · rw [if_pos hsell] at hx
        by_cases hdust : |t.units| ≤ epsQ
        · rw [if_pos hdust] at hx
          exact h x hx
        · rw [if_neg hdust] at hx
          have hcons := consumeLots_nonneg st.openLots |t.units| h
          by_cases hemp : (consumeLots st.openLots |t.units|).consumed.isEmpty
          · simp only [if_pos hemp] at hx
            exact hcons x hx
          · simp only [if_neg hemp] at hx
            by_cases hsale : t.nav * ((consumeLots st.openLots |t.units|).consumed.map
                ConsumedPortion.units).sum > 0
            · simp only [if_pos hsale] at hx
              exact hcons x hx
            · simp only [if_neg hsale] at hx
              exact hcons x hx
      · rw [if_neg hsell] at hx
        exact h x hx

theorem anFundState_nonneg (accountLists : List (List MfTxn)) :
    ∀ lot ∈ (anFundState accountLists).openLots, lotAOK lot := by
  unfold anFundState
  suffices hgen : ∀ (ls : List (List MfTxn)) (st : AnState),
      (∀ lot ∈ st.openLots, lotAOK lot) →
      ∀ lot ∈ (ls.foldl (fun st l => (anPrepare l).foldl anStep st) st).openLots, lotAOK lot by
    apply hgen
    intro lot hlot
    cases hlot
  intro ls
  induction ls with
  | nil => intro st h lot hlot; exact h lot hlot
  | cons l rest ih =>
    intro st h lot hlot
    rw [List.foldl_cons] at hlot
    apply ih _ _ lot hlot
    suffices hinner : ∀ (ts : List MfPrepared) (st' : AnState),
        (∀ x ∈ st'.openLots, lotAOK x) →
        ∀ x ∈ (ts.foldl anStep st').openLots, lotAOK x by
      exact hinner (anPrepare l) st h
    intro ts
    induction ts with
    | nil => intro st' h' x hx; exact h' x hx
    | cons t rest2 ih2 =>
      intro st' h' x hx
      rw [List.foldl_cons] at hx
      exact ih2 (anStep st' t) (anStep_nonneg st' t h') x hx



/-- C3 amended: per-lot units and cost stay nonnegative (hence so do
their sums) through every ledger and every event sequence, provided buy
events carry nonnegative navs (`calculateMFLots` accepts negative navs,
which create negative-cost lots); the three sale-consumption routines
preserve nonnegativity unconditionally, and the analysis-summary fold
needs no nav hypothesis because it skips non-positive navs itself. -/
theorem ledger_nonneg :
    (∀ (txns : List MfTxn) (fund account : String), (∀ t ∈ txns, 0 ≤ t.nav) →
      (∀ lot ∈ mfLedger txns fund account, 0 ≤ lot.units ∧ 0 ≤ lot.cost) ∧
      0 ≤ ((mfLedger txns fund account).map Lot.units).sum ∧
      0 ≤ ((mfLedger txns fund account).map Lot.cost).sum) ∧
    (∀ (lots : List Lot) (r : ℚ), (∀ lot ∈ lots, 0 ≤ lot.units ∧ 0 ≤ lot.cost) →
      ∀ lot ∈ reduceLotUnits lots r, 0 ≤ lot.units ∧ 0 ≤ lot.cost) ∧
    (∀ (lots : List Lot) (r : ℚ), (∀ lot ∈ lots, 0 ≤ lot.units ∧ 0 ≤ lot.cost) →
      ∀ lot ∈ reduceLotUnitsAgg lots r, 0 ≤ lot.units ∧ 0 ≤ lot.cost) ∧
    (∀ (lots : List LotA) (r : ℚ), (∀ lot ∈ lots, 0 ≤ lot.units ∧ 0 ≤ lot.cost) →
      ∀ lot ∈ (consumeLots lots r).lots, 0 ≤ lot.units ∧ 0 ≤ lot.cost) ∧
    (∀ accountLists : List (List MfTxn),
      (∀ lot ∈ (anFundState accountLists).openLots, 0 ≤ lot.units ∧ 0 ≤ lot.cost) ∧
      0 ≤ (((anFundState accountLists).openLots).map LotA.units).sum ∧
      0 ≤ (((anFundState accountLists).openLots).map LotA.cost).sum) := by
  refine ⟨?_, ?_, ?_, ?_, ?_⟩
  · intro txns fund account hnav
    have hmem := mfLedger_nonneg txns fund account hnav
    refine ⟨hmem, ?_, ?_⟩
    · apply List.sum_nonneg
      intro x hx
      rcases List.mem_map.mp hx with ⟨lot, hlot, rfl⟩
      exact (hmem lot hlot).1
    · apply List.sum_nonneg
      intro x hx
      rcases List.mem_map.mp hx with ⟨lot, hlot, rfl⟩
      exact (hmem lot hlot).2
  · exact reduceLotUnits_nonneg
  · exact reduceLotUnitsAgg_nonneg
  · exact consumeLots_nonneg
  · intro accountLists
    have hmem := anFundState_nonneg accountLists
    refine ⟨hmem, ?_, ?_⟩
    · apply List.sum_nonneg
      intro x hx
      rcases List.mem_map.mp hx with ⟨lot, hlot, rfl⟩
      exact (hmem lot hlot).1
    · apply List.sum_nonneg
      intro x hx
      rcases List.mem_map.mp hx with ⟨lot, hlot, rfl⟩
      exact (hmem lot hlot).2

/-- C3 counterexample: a single buy of 10 units at nav −5 leaves the
`calculateMFLots` ledger with one open lot of cost −50, so the sum of
open-lot cost basis is negative. -/
theorem mf_negative_cost_cx :
    mfLedger mfNegNavTxns "F" "A" = [⟨10, -50, some 1, 0⟩] ∧
    ((mfLedger mfNegNavTxns "F" "A").map Lot.cost).sum < 0 :=
  ⟨by with_unfolding_all rfl, by with_unfolding_all rfl⟩

/-- Witness for `ledger_nonneg` at concrete inputs. -/
theorem ledger_nonneg_witness :
    (0 ≤ ((mfLedger mfFifoTxns "F" "A").map Lot.units).sum ∧
      0 ≤ ((mfLedger mfFifoTxns "F" "A").map Lot.cost).sum) ∧
    (0 ≤ (⟨2, 20, none, 0⟩ : Lot).units ∧ 0 ≤ (⟨2, 20, none, 0⟩ : Lot).cost) ∧
    (0 ≤ (⟨1, 10, none, 0⟩ : Lot).units ∧ 0 ≤ (⟨1, 10, none, 0⟩ : Lot).cost) ∧
    (0 ≤ (⟨2, 20, 10, none, 0⟩ : LotA).units ∧ 0 ≤ (⟨2, 20, 10, none, 0⟩ : LotA).cost) ∧
    0 ≤ (((anFundState anPartialExit).openLots).map LotA.units).sum := by
  have hnav : ∀ t ∈ mfFifoTxns, 0 ≤ t.nav := by
    intro t ht
    rcases List.mem_cons.mp ht with rfl | h2
    · norm_num
    · rcases List.mem_cons.mp h2 with rfl | h3
      · norm_num
      · rcases List.mem_cons.mp h3 with rfl | h4
        · norm_num
        · cases h4
  have hok : ∀ lot ∈ [(⟨5, 50, none, 0⟩ : Lot)], 0 ≤ lot.units ∧ 0 ≤ lot.cost := by
    intro lot hl
    rcases List.mem_cons.mp hl with rfl | h2
    · constructor <;> norm_num
    · cases h2
  have hokA : ∀ lot ∈ [(⟨5, 50, 10, none, 0⟩ : LotA)], 0 ≤ lot.units ∧ 0 ≤ lot.cost := by
    intro lot hl
    rcases List.mem_cons.mp hl with rfl | h2
    · constructor <;> norm_num
    · cases h2
  have e1 : reduceLotUnits [⟨5, 50, none, 0⟩] 3 = [⟨2, 20, none, 0⟩] := by
    with_unfolding_all rfl
  have e2 : reduceLotUnitsAgg [⟨5, 50, none, 0⟩] 4 = [⟨1, 10, none, 0⟩] := by
    with_unfolding_all rfl
  have e3 : (consumeLots [⟨5, 50, 10, none, 0⟩] 3).lots = [⟨2, 20, 10, none, 0⟩] := by
    with_unfolding_all rfl
  exact ⟨(ledger_nonneg.1 mfFifoTxns "F" "A" hnav).2,
    ledger_nonneg.2.1 _ 3 hok ⟨2, 20, none, 0⟩ (by rw [e1]; exact List.mem_singleton.mpr rfl),
    ledger_nonneg.2.2.1 _ 4 hok ⟨1, 10, none, 0⟩ (by rw [e2]; exact List.mem_singleton.mpr rfl),
    ledger_nonneg.2.2.2.1 _ 3 hokA ⟨2, 20, 10, none, 0⟩
      (by rw [e3]; exact List.mem_singleton.mpr rfl),
    (ledger_nonneg.2.2.2.2 anPartialExit).2.1⟩



/-- C9: in the dashboard asset allocation, the marketAllocation
percentages sum to exactly 100 (so within 1e-6) whenever the total
market value is positive, and the investedAllocation percentages sum to
exactly 100 whenever the total invested value is positive; when the
respective total is 0 every row's percentage is exactly 0. -/
theorem allocation_sums (d : DashData) :
    (0 < totalMarketValue d →
      |((enrichedRows d).map EnrichedRow.marketAllocation).sum - 100| < 1 / 1000000) ∧
    (totalMarketValue d = 0 → ∀ r ∈ enrichedRows d, r.marketAllocation = 0) ∧
    (0 < totalInvestedValue d →
      |((enrichedRows d).map EnrichedRow.investedAllocation).sum - 100| < 1 / 1000000) ∧
    (totalInvestedValue d = 0 → ∀ r ∈ enrichedRows d, r.investedAllocation = 0) := by
  have hTm : totalMarketValue d =
      d.stockMV + d.etfMV + d.mfMV + d.bankTotal + d.ppfMV + d.epfTotal + d.npsMV + d.fdMV := by
    simp [totalMarketValue, dashRows]
    ring
  refine ⟨?_, ?_, ?_, ?_⟩
  · intro h
    have hne : d.stockMV + d.etfMV + d.mfMV + d.bankTotal + d.ppfMV + d.epfTotal +
        d.npsMV + d.fdMV ≠ 0 := by
      rw [← hTm]
      exact ne_of_gt h
    have key : ((enrichedRows d).map EnrichedRow.marketAllocation).sum = 100 := by
      simp only [enrichedRows, List.map_map]
      simp only [h, if_true, gt_iff_lt]
      simp [dashRows, Function.comp, hTm]
      field_simp
      ring
    rw [key]
    norm_num
  · intro h r hr
    simp only [enrichedRows, List.mem_map] at hr
    rcases hr with ⟨row, _, rfl⟩
    simp only [h]
    norm_num
  · intro h
    have hI : d.stockInv - d.totalEquityCharges + d.etfInv + d.mfInv + d.bankTotal +
        d.ppfInv + d.epfInv + d.npsInv + d.fdInv = totalInvestedValue d := by
      unfold totalInvestedValue
      ring
    have hne : d.stockInv - d.totalEquityCharges + d.etfInv + d.mfInv + d.bankTotal +
        d.ppfInv + d.epfInv + d.npsInv + d.fdInv ≠ 0 := by
      rw [hI]
      exact ne_of_gt h
    have hne2 : totalInvestedValue d ≠ 0 := ne_of_gt h
    have key : ((enrichedRows d).map EnrichedRow.investedAllocation).sum = 100 := by
      simp only [enrichedRows, List.map_map]
      simp only [h, if_true, gt_iff_lt]
      simp [dashRows, Function.comp]
      field_simp
      rw [← hI]
      ring
    rw [key]
    norm_num
  · intro h r hr
    simp only [enrichedRows, List.mem_map] at hr
    rcases hr with ⟨row, _, rfl⟩
    simp only [h]
    norm_num



/-- Witness for `allocation_sums` at concrete inputs. -/
theorem allocation_sums_witness :
    |((enrichedRows dashOnes).map EnrichedRow.marketAllocation).sum - 100| < 1 / 1000000 ∧
    |((enrichedRows dashOnes).map EnrichedRow.investedAllocation).sum - 100| < 1 / 1000000 ∧
    (⟨"Stock", 0, 0⟩ : EnrichedRow).marketAllocation = 0 ∧
    (⟨"Stock", 0, 0⟩ : EnrichedRow).investedAllocation = 0 := by
  have hrow : (⟨"Stock", 0, 0⟩ : EnrichedRow) ∈ enrichedRows dashZero := by
    have he : enrichedRows dashZero =
        [⟨"Stock", 0, 0⟩, ⟨"ETF", 0, 0⟩, ⟨"MF", 0, 0⟩, ⟨"Bank", 0, 0⟩,
         ⟨"PPF", 0, 0⟩, ⟨"EPF", 0, 0⟩, ⟨"NPS", 0, 0⟩, ⟨"FD", 0, 0⟩] := by
      with_unfolding_all rfl
    rw [he]
    exact List.mem_cons_self _ _
  exact ⟨(allocation_sums dashOnes).1 (by with_unfolding_all rfl),
    (allocation_sums dashOnes).2.2.1 (by with_unfolding_all rfl),
    (allocation_sums dashZero).2.1 (by with_unfolding_all rfl) _ hrow,
    (allocation_sums dashZero).2.2.2 (by with_unfolding_all rfl) _ hrow⟩



theorem addToAccount_bdm (m : List (String × AccountTotals)) (c : Contribution)
    (h : isBDM c = true) : addToAccount m c = m := by
  unfold addToAccount
  unfold isBDM at h
  rw [if_pos h]

theorem assocUpdate_keys {α : Type} (m : List (String × α)) (k : String) (dflt : α)
    (f : α → α) : ∀ k2 ∈ (assocUpdate m k dflt f).map Prod.fst,
      k2 ∈ m.map Prod.fst ∨ k2 = k := by
  induction m with
  | nil =>
    intro k2 h2
    simp [assocUpdate] at h2
    exact Or.inr h2
  | cons p rest ih =>
    intro k2 h2
    unfold assocUpdate at h2
    by_cases he : p.1 == k
    · rw [if_pos he] at h2
      simp at h2
      rcases h2 with rfl | h3
      · exact Or.inl (by simp)
      · exact Or.inl (by simp [h3])
    · rw [if_neg he] at h2
      simp at h2
      rcases h2 with rfl | h3
      · exact Or.inl (by simp)
      · rcases ih k2 (by simpa using h3) with h4 | h4
        · exact Or.inl (by simp at h4 ⊢; exact Or.inr h4)
        · exact Or.inr h4

/-- C10: the account-wise aggregation silently excludes every
contribution whose trimmed, upper-cased account name is `BDM`: the
resulting map (totals and per-asset breakdowns alike) equals the one
built from the input with those contributions removed, and no key of
the result upper-cases to `BDM`. -/
theorem bdm_excluded :
    ∀ cs : List Contribution,
      buildAccountTotals cs = buildAccountTotals (cs.filter fun c => !isBDM c) ∧
      ∀ k ∈ (buildAccountTotals cs).map Prod.fst, ¬ k.toUpper = "BDM" := by
  have hfold : ∀ (cs : List Contribution) (m : List (String × AccountTotals)),
      cs.foldl addToAccount m = (cs.filter fun c => !isBDM c).foldl addToAccount m := by
    intro cs
    induction cs with
    | nil => intro m; rfl
    | cons c rest ih =>
      intro m
      rw [List.foldl_cons, List.filter_cons]
      by_cases h : isBDM c = true
      · have h2 : (!isBDM c) = false := by rw [h]; rfl
        rw [h2, if_neg Bool.false_ne_true, addToAccount_bdm m c h, ih]
      · have h2 : (!isBDM c) = true := by rw [Bool.eq_false_iff.mpr h]; rfl
        rw [h2, if_pos rfl, List.foldl_cons, ih]
  have hkeys : ∀ (cs : List Contribution) (m : List (String × AccountTotals)),
      (∀ k ∈ m.map Prod.fst, ¬ k.toUpper = "BDM") →
      ∀ k ∈ (cs.foldl addToAccount m).map Prod.fst, ¬ k.toUpper = "BDM" := by
    intro cs
    induction cs with
    | nil => intro m h; exact h
    | cons c rest ih =>
      intro m h
      rw [List.foldl_cons]
      apply ih
      intro k hk
      unfold addToAccount at hk
      by_cases hb : c.accountName.trim.toUpper == "BDM"
      · rw [if_pos hb] at hk
        exact h k hk
      · rw [if_neg hb] at hk
        rcases assocUpdate_keys m _ _ _ k hk with hmem | rfl
        · exact h k hmem
        · by_cases hblank : c.accountName.trim == ""
          · rw [if_pos hblank]
            intro hcontra
            have hup :"Other Accounts".toUpper = "OTHER ACCOUNTS" := by with_unfolding_all rfl
            rw [hup] at hcontra
            exact absurd hcontra (by decide)
          · rw [if_neg hblank]
            intro hcontra
            exact absurd (beq_iff_eq.mpr hcontra) (by simpa using hb)
  intro cs
  constructor
  · exact hfold cs []
  · apply hkeys cs []
    intro k hk
    cases hk




/-- Witness for `bdm_excluded` at a concrete input. -/
theorem bdm_excluded_witness :
    buildAccountTotals bdmContribs =
      buildAccountTotals (bdmContribs.filter fun c => !isBDM c) ∧
    ¬ ("Acc" : String).toUpper = "BDM" := by
  have hkeys : (buildAccountTotals bdmContribs).map Prod.fst = ["Acc"] := by
    with_unfolding_all rfl
  refine ⟨(bdm_excluded bdmContribs).1, ?_⟩
  apply (bdm_excluded bdmContribs).2 "Acc"
  rw [hkeys]
  exact List.mem_singleton.mpr rfl



instance : IsTotal BankTxn bankDescBefore := by
  constructor
  intro a b
  unfold bankDescBefore bankDateLE
  rcases lt_trichotomy (dateD b).ym (dateD a).ym with h | h | h
  · exact Or.inl (Or.inl h)
  · rcases le_total (dateD b).sub (dateD a).sub with h2 | h2
    · exact Or.inl (Or.inr ⟨h, h2⟩)
    · exact Or.inr (Or.inr ⟨h.symm, h2⟩)
  · exact Or.inr (Or.inl h)

instance : IsTrans BankTxn bankDescBefore := by
  constructor
  intro a b c hab hbc
  unfold bankDescBefore bankDateLE at *
  rcases hab with h1 | ⟨h1, h1s⟩
  · rcases hbc with h2 | ⟨h2, _⟩
    · exact Or.inl (h2.trans h1)
    · exact Or.inl (h2 ▸ h1)
  · rcases hbc with h2 | ⟨h2, h2s⟩
    · exact Or.inl (h1 ▸ h2)
    · exact Or.inr ⟨h2.trans h1, h2s.trans h1s⟩

theorem find?_sorted_max {α : Type} (p : α → Bool) (le : α → α → Prop) :
    ∀ {l : List α} {t : α}, List.Pairwise le l → l.find? p = some t →
      ∀ u ∈ l, p u = true → u = t ∨ le t u := by
  intro l
  induction l with
  | nil => intro t _ hf; cases hf
  | cons a rest ih =>
    intro t hpw hf u hu hpu
    by_cases hpa : p a = true
    · rw [List.find?_cons_of_pos _ hpa] at hf
      have hta : a = t := by cases hf; rfl
      rcases List.mem_cons.mp hu with rfl | hmem
      · exact Or.inl hta
      · exact Or.inr (hta ▸ (List.pairwise_cons.mp hpw).1 u hmem)
    · rw [List.find?_cons_of_neg _ (by simpa using hpa)] at hf
      rcases List.mem_cons.mp hu with rfl | hmem
      · exact absurd hpu hpa
      · exact ih (List.pairwise_cons.mp hpw).2 hf u hmem hpu

theorem selectBankTxn_some (g : List BankTxn) (m : ℤ) (t : BankTxn)
    (h : selectBankTxn g m = some t) :
    t ∈ g ∧ (∃ d, t.txn_date = some d ∧ d.ym = m) ∧
      ∀ u ∈ g, ∀ du, u.txn_date = some du → du.ym = m → bankDateLE du (dateD t) := by
  unfold selectBankTxn at h
  have hperm : List.Perm
      ((g.filter fun t => t.txn_date.isSome).insertionSort bankDescBefore)
      (g.filter fun t => t.txn_date.isSome) := List.perm_insertionSort _ _
  have hsorted : List.Pairwise bankDescBefore
      ((g.filter fun t => t.txn_date.isSome).insertionSort bankDescBefore) :=
    List.sorted_insertionSort bankDescBefore _
  have htmem : t ∈ g := by
    have := List.mem_of_find?_eq_some h
    exact List.mem_of_mem_filter (hperm.mem_iff.mp this)
  have hpt := List.find?_some h
  have hdate : ∃ d, t.txn_date = some d ∧ d.ym = m := by
    revert hpt
    match hd : t.txn_date with
    | some d =>
      intro hpt
      simp only at hpt
      exact ⟨d, rfl, by exact_mod_cast of_decide_eq_true hpt⟩
    | none => intro hpt; cases hpt
  refine ⟨htmem, hdate, ?_⟩
  intro u hu du hdu hym
  have humem : u ∈ (g.filter fun t => t.txn_date.isSome).insertionSort bankDescBefore := by
    apply hperm.mem_iff.mpr
    apply List.mem_filter.mpr
    exact ⟨hu, by rw [hdu]; rfl⟩
  have hpu : (match u.txn_date with
      | some d => d.ym == m
      | none => false) = true := by
    rw [hdu]
    simpa using hym
  rcases find?_sorted_max _ bankDescBefore hsorted h u humem hpu with rfl | hle
  · have : dateD u = du := by unfold dateD; rw [hdu]; rfl
    rw [← this]
    exact bankDateLE_refl _
  · unfold bankDescBefore at hle
    have : dateD u = du := by unfold dateD; rw [hdu]; rfl
    rwa [this] at hle

theorem selectBankTxn_none (g : List BankTxn) (m : ℤ)
    (h : selectBankTxn g m = none) :
    ∀ u ∈ g, ∀ du, u.txn_date = some du → du.ym ≠ m := by
  intro u hu du hdu hym
  unfold selectBankTxn at h
  rw [List.find?_eq_none] at h
  have humem : u ∈ (g.filter fun t => t.txn_date.isSome).insertionSort bankDescBefore := by
    apply (List.perm_insertionSort _ _).mem_iff.mpr
    apply List.mem_filter.mpr
    exact ⟨hu, by rw [hdu]; rfl⟩
  have := h u humem
  rw [hdu] at this
  simp at this
  exact this hym




/-- C7 amended: the bank aggregator keeps, per `(account, institution,
account-type)` group, only the latest transaction dated in the most
recent calendar month — the picked transaction belongs to the group, is
dated in month `m`, and its date dominates every group member dated in
`m`; when no member is dated in `m` nothing is picked — and returns
per-type sums (savings, demat, total) for that month alone, as the
concrete evaluation shows (prior-month rows are never summed; no
prior-month totals or month-over-month delta exist in the output). -/
theorem bank_latest_month_only :
    (∀ (g : List BankTxn) (m : ℤ) (t : BankTxn),
        selectBankTxn g m = some t →
        t ∈ g ∧ (∃ d, t.txn_date = some d ∧ d.ym = m) ∧
          ∀ u ∈ g, ∀ du, u.txn_date = some du → du.ym = m → bankDateLE du (dateD t)) ∧
    (∀ (g : List BankTxn) (m : ℤ), selectBankTxn g m = none →
        ∀ u ∈ g, ∀ du, u.txn_date = some du → du.ym ≠ m) ∧
    calculateBankHoldings bankTwoMonths = ⟨150, 50, 200⟩ :=
  ⟨selectBankTxn_some, selectBankTxn_none, by with_unfolding_all rfl⟩

/-- C7 counterexample: two inputs that differ only in a prior-month
amount (999 vs 111) produce identical outputs, so the output carries no
prior-month sums and no month-over-month delta. -/
theorem bank_no_prior_month_cx :
    calculateBankHoldings bankTwoMonths = calculateBankHoldings bankTwoMonthsAlt ∧
    bankTwoMonths.map BankTxn.amount = [100, 150, 999, 50] ∧
    bankTwoMonthsAlt.map BankTxn.amount = [100, 150, 111, 50] ∧
    (999 : ℚ) ≠ 111 :=
  ⟨by with_unfolding_all rfl, by with_unfolding_all rfl, by with_unfolding_all rfl,
   by norm_num⟩

/-- Witness for `bank_latest_month_only` at concrete inputs. -/
theorem bank_latest_month_only_witness :
    (⟨"a1", "b1", "Savings", some ⟨202403, 20⟩, 150⟩ : BankTxn) ∈ bankA1 ∧
    bankDateLE ⟨202403, 10⟩ (dateD ⟨"a1", "b1", "Savings", some ⟨202403, 20⟩, 150⟩) ∧
    ((202403 : ℤ) ≠ 202402) := by
  have hsel : selectBankTxn bankA1 202403 =
      some ⟨"a1", "b1", "Savings", some ⟨202403, 20⟩, 150⟩ := by with_unfolding_all rfl
  have h1 := bank_latest_month_only.1 bankA1 202403 _ hsel
  refine ⟨h1.1, ?_, ?_⟩
  · exact h1.2.2 ⟨"a1", "b1", "Savings", some ⟨202403, 10⟩, 100⟩
      (List.mem_cons_self _ _) ⟨202403, 10⟩ rfl rfl
  · have hsel2 : selectBankTxn [⟨"a2", "b1", "Demat", some ⟨202403, 5⟩, 50⟩] 202402 =
        none := by with_unfolding_all rfl
    exact bank_latest_month_only.2.1 _ 202402 hsel2 _
      (List.mem_singleton.mpr rfl) ⟨202403, 5⟩ rfl

end Portfolio
